import Mathlib

/-!
Verification of the hive retrieval engine core against its specification.

Each definition below is a shallow embedding of a function from the
repository's `core/` modules (`text.py`, `indexer.py`, `searcher.py`,
`evaluator.py`).  Exact rational/real arithmetic stands in for Python
floats; Python lists become Lean lists; Python `set`s are modelled as
deduplicated lists; Python dicts of JSON data become an explicit JSON
value type.  The `round(x, 4)` calls in `evaluator.py` are display
rounding of the returned metrics; the model returns the unrounded
values, which is what the specification's "within floating rounding"
phrasing refers to.
-/

namespace Hive

/-! ### Tokenizer (`core/text.py`)

`tokenize` lowercases, replaces every character outside `[a-z0-9]` by a
space, splits on whitespace, and drops stop words and empty tokens.
Strings are processed through their character lists; `splitSep` models
`str.split` on a single separator character (keeping empty fields, which
the filter then removes, matching Python's `.split()` with the `if t`
guard). -/

def STOP_WORDS : List String :=
  ["a", "an", "and", "are", "as", "at", "be", "but", "by", "for", "from",
   "has", "have", "he", "her", "his", "how", "i", "if", "in", "into", "is",
   "it", "its", "just", "me", "my", "no", "nor", "not", "of", "on", "or",
   "our", "own", "s", "she", "so", "some", "such", "than", "that", "the",
   "their", "them", "then", "there", "these", "they", "this", "to", "too",
   "us", "very", "was", "we", "were", "what", "when", "where", "which",
   "while", "who", "whom", "why", "will", "with", "would", "you", "your"]

/-- Character class `[a-z0-9]` of the regex in `tokenize` and `_slugify`. -/
def isKept (c : Char) : Bool :=
  ('a' ≤ c && c ≤ 'z') || ('0' ≤ c && c ≤ '9')

/-- One character of `re.sub(r"[^a-z0-9]", " ", text)`. -/
def cleanChar (c : Char) : Char :=
  if isKept c then c else ' '

/-- Split a character list at every occurrence of `sep`, keeping empty
fields (the semantics of Python's `str.split(sep)`); always returns a
nonempty list of fields. -/
def splitSep (sep : Char) : List Char → List (List Char)
  | [] => [[]]
  | c :: cs =>
    match splitSep sep cs with
    | [] => [[]]
    | t :: ts => if c = sep then [] :: t :: ts else (c :: t) :: ts

/-- Embedding of `tokenize` from `core/text.py`: lowercase, strip
punctuation to spaces, split on whitespace, drop empty and stop-word
tokens. -/
def tokenize (text : String) : List String :=
  let cleaned := (text.data.map Char.toLower).map cleanChar
  ((splitSep ' ' cleaned).map String.mk).filter
    (fun t => !(t == "") && !(STOP_WORDS.contains t))

/-- Python's `sep.join(tokens)`. -/
def pyJoin (sep : String) : List String → String
  | [] => ""
  | [t] => t
  | t :: t' :: ts => t ++ sep ++ pyJoin sep (t' :: ts)

/-! ### Chunker (`core/indexer.py`)

`chunk_markdown` reads a file and splits it at lines starting with the
heading marker of the requested level.  The embedding takes the file
text and the path-derived strings (`rel_path`, `category`, `title`) as
parameters, since the path arithmetic is filesystem I/O. -/

/-- One chunk as built by `chunk_markdown`. -/
structure Chunk where
  id : String
  doc_id : String
  text : String
  category : String
  title : String
  heading : String
deriving DecidableEq

/-- Whitespace trim of both ends, Python's `str.strip()`. -/
def trimChars (l : List Char) : List Char :=
  ((l.dropWhile Char.isWhitespace).reverse.dropWhile Char.isWhitespace).reverse

/-- Collapse consecutive dashes to a single dash (the `+` in the
`_slugify` regex `[^a-z0-9]+`). -/
def collapseDash : List Char → List Char
  | [] => []
  | [c] => [c]
  | a :: b :: rest =>
    if a = '-' && b = '-' then collapseDash (b :: rest)
    else a :: collapseDash (b :: rest)

/-- Python's `str.strip("-")`. -/
def stripDash (l : List Char) : List Char :=
  ((l.dropWhile (· = '-')).reverse.dropWhile (· = '-')).reverse

/-- Embedding of `_slugify`: lowercase, replace runs of non-alphanumeric
characters by a single dash, strip leading/trailing dashes. -/
def slugify (heading : String) : String :=
  String.mk (stripDash (collapseDash
    ((heading.data.map Char.toLower).map (fun c => if isKept c then c else '-'))))

/-- The heading marker `"#" * heading_level + " "`. -/
def headingMarker (heading_level : ℕ) : List Char :=
  List.replicate heading_level '#' ++ [' ']

/-- Loop state of `chunk_markdown`: accumulated `sections`, the
`current_heading`, and the `current_lines` of the open section. -/
structure ChunkAcc where
  secs : List (List Char × List (List Char))
  heading : List Char
  curr : List (List Char)

/-- One iteration of the line loop in `chunk_markdown`. -/
def chunkStep (mark : List Char) (s : ChunkAcc) (line : List Char) : ChunkAcc :=
  if mark.isPrefixOf line then
    { secs := if s.curr ≠ [] then s.secs ++ [(s.heading, s.curr)] else s.secs
      heading := trimChars (line.drop mark.length)
      curr := [line] }
  else
    { s with curr := s.curr ++ [line] }

/-- Python's `"\n".join(lines)` at the character level. -/
def joinLines : List (List Char) → List Char
  | [] => []
  | [t] => t
  | t :: t' :: ts => t ++ '\n' :: joinLines (t' :: ts)

/-- Embedding of `chunk_markdown` from `core/indexer.py` (the text is
passed directly; `rel_path`, `category` and `title` are the values the
source derives from the document path). -/
def chunk_markdown (text rel_path category title : String)
    (heading_level : ℕ) : List Chunk :=
  let mark := headingMarker heading_level
  let lines := splitSep '\n' text.data
  let st := lines.foldl (chunkStep mark) ⟨[], title.data, []⟩
  let secs := if st.curr ≠ [] then st.secs ++ [(st.heading, st.curr)] else st.secs
  let secs := if secs = [] then [(title.data, lines)] else secs
  secs.filterMap (fun sec =>
    let chunk_text := trimChars (joinLines sec.2)
    if chunk_text = [] then none
    else some
      { id := rel_path ++ "#" ++ slugify (String.mk sec.1)
        doc_id := rel_path
        text := String.mk chunk_text
        category := category
        title := title
        heading := String.mk sec.1 })

/-! ### Searcher (`core/searcher.py`)

Fused scores, BM25 inputs and rank arithmetic are exact rationals; the
BM25 idf uses the real logarithm.  `SearchResult` carries the fields the
verified functions read. -/

/-- Embedding of the `SearchResult` dataclass. -/
structure SearchResult where
  chunk_id : String
  doc_id : String
  score : ℚ
  bm25_rank : ℕ
  vector_rank : ℕ
  flagged : Bool
  disagreement : Option ℚ
deriving DecidableEq

/-- BM25 constant `K1 = 1.2`. -/
def K1 : ℝ := 1.2

/-- BM25 constant `B = 0.75`. -/
def B : ℝ := 0.75

/-- The per-term idf computed in `bm25_search`:
`math.log((N - df + 0.5) / (df + 0.5) + 1.0)`. -/
noncomputable def bm25Idf (N df : ℕ) : ℝ :=
  Real.log (((N : ℝ) - (df : ℝ) + 0.5) / ((df : ℝ) + 0.5) + 1)

/-- The per-term, per-chunk score increment of the inner loop of
`bm25_search`: `idf * numerator / denominator` with
`numerator = tf * (K1 + 1)` and
`denominator = tf + K1 * (1 - B + B * dl / avgdl)`. -/
noncomputable def bm25Term (N df : ℕ) (tf dl avgdl : ℝ) : ℝ :=
  bm25Idf N df * (tf * (K1 + 1)) / (tf + K1 * (1 - B + B * dl / avgdl))

/-- Rank of `cid` in a scored list, as built by the Python dict
comprehension `{cid: rank + 1 for rank, (cid, _) in enumerate(...)}`
(1-based; on duplicate ids the later entry wins, as in a dict). -/
def dictRank (l : List (String × ℚ)) (cid : String) : Option ℕ :=
  l.enum.foldl (fun acc p => if p.2.1 = cid then some (p.1 + 1) else acc) none

/-- The RRF score `1.0 / (rrf_k + br) + 1.0 / (rrf_k + vr)`. -/
def rrfScore (rrf_k : ℕ) (br vr : ℕ) : ℚ :=
  1 / ((rrf_k : ℚ) + (br : ℚ)) + 1 / ((rrf_k : ℚ) + (vr : ℚ))

/-- Stable insert for a descending sort by a rational key: `x` is placed
before the first element whose key is not larger (Python's stable
`sorted(..., reverse=True)`). -/
def insertDescBy (key : α → ℚ) (x : α) : List α → List α
  | [] => [x]
  | y :: ys => if key x < key y then y :: insertDescBy key x ys else x :: y :: ys

/-- Sort descending by a rational key (stable insertion sort, modelling
Python's `sorted(..., key=..., reverse=True)`). -/
def sortDescBy (key : α → ℚ) (l : List α) : List α :=
  l.foldr (insertDescBy key) []

/-- Embedding of `rrf_fuse`: for the union of ids of both sides, score
`1/(rrf_k + bm25_rank) + 1/(rrf_k + vector_rank)` with fallback rank
`len(side) + 1` for a missing side, sorted descending by score.  (The
union of the two Python dicts' key sets is modelled as the deduplicated
concatenation of the id lists; the claims proved below do not depend on
set iteration order.) -/
def rrf_fuse (bm25_results vector_results : List (String × ℚ))
    (rrf_k : ℕ) : List (String × ℚ × ℕ × ℕ) :=
  let fallback_bm25 := bm25_results.length + 1
  let fallback_vector := vector_results.length + 1
  let all_ids := (bm25_results.map Prod.fst ++ vector_results.map Prod.fst).dedup
  let fused := all_ids.map (fun cid =>
    let br := (dictRank bm25_results cid).getD fallback_bm25
    let vr := (dictRank vector_results cid).getD fallback_vector
    (cid, rrfScore rrf_k br vr, br, vr))
  sortDescBy (fun x => x.2.1) fused

/-- The consecutive score gaps `results[i-1][1] - results[i][1]` of
`apply_dynamic_k`. -/
def gapsOf : List (String × ℚ) → List ℚ
  | a :: b :: rest => (a.2 - b.2) :: gapsOf (b :: rest)
  | _ => []

/-- The scan loop of `apply_dynamic_k`: walks the gap list keeping the
1-based gap index and running gap sum; returns the cut position `i` of
the first gap with `i >= min_results`, positive running mean, and
`gap > gap_threshold_factor * running_mean`. -/
def findCliff (f : ℚ) (min_results : ℕ) :
    List ℚ → ℕ → ℚ → Option ℕ
  | [], _, _ => none
  | g :: rest, i, gap_sum =>
    let gs := gap_sum + g
    let j := i + 1
    let running_mean := gs / (j : ℚ)
    if min_results ≤ j ∧ 0 < running_mean ∧ f * running_mean < g then some j
    else findCliff f min_results rest j gs

/-- Embedding of `apply_dynamic_k`: cap at `max_results`, return
unchanged if at most `min_results` items remain, else cut at the first
score cliff. -/
def apply_dynamic_k (results : List (String × ℚ)) (gap_threshold_factor : ℚ)
    (min_results max_results : ℕ) : List (String × ℚ) :=
  let results := results.take max_results
  if results.length ≤ min_results then results
  else
    match findCliff gap_threshold_factor min_results (gapsOf results) 0 0 with
    | some i => results.take i
    | none => results

/-- The disagreement ratio `abs(bm25_rank - vector_rank) / max_rank`
computed by `flag_distractors`. -/
def disagreementOf (r : SearchResult) : ℚ :=
  |(r.bm25_rank : ℚ) - (r.vector_rank : ℚ)| / (max r.bm25_rank r.vector_rank : ℚ)

/-- The loop body of `flag_distractors` for one result: with both ranks
positive, store the disagreement ratio and set the flag when it exceeds
the threshold; otherwise leave the result untouched. -/
def flagStep (disagreement_threshold : ℚ) (r : SearchResult) : SearchResult :=
  if 0 < r.bm25_rank ∧ 0 < r.vector_rank then
    let d := disagreementOf r
    if disagreement_threshold < d then
      { r with disagreement := some d, flagged := true }
    else
      { r with disagreement := some d }
  else r

/-- Embedding of `flag_distractors` (the in-place mutation of each list
element becomes a map). -/
def flag_distractors (results : List SearchResult)
    (disagreement_threshold : ℚ) : List SearchResult :=
  results.map (flagStep disagreement_threshold)

/-! ### Evaluator (`core/evaluator.py`) -/

/-- A golden query record: `relevant` and `distractors` document-id
lists (the source turns them into Python sets; the embedding
deduplicates them where set semantics matter). -/
structure GoldenQuery where
  relevant : List String
  distractors : List String
deriving DecidableEq

/-- The metrics dict returned by `compute_udcg` (unrounded values; the
source applies `round(·, 4)` for display). -/
structure EvalResult where
  nudcg : ℝ
  udcg : ℝ
  ideal_udcg : ℝ
  precision_at_k : ℝ
  distractor_count : ℕ

/-- Loop state of the main `compute_udcg` loop: `seen_docs` (a list used
as a set), the running `udcg`, `relevant_in_top_k`, `distractor_count`,
and the 1-based `position`. -/
structure UdcgState where
  seen : List String
  udcg : ℝ
  relevant_in_top_k : ℕ
  distractor_count : ℕ
  pos : ℕ

/-- One iteration of the `compute_udcg` loop: advance the position; skip
already-seen documents entirely; otherwise add
`utility / log2(position + 1)` with utility `+1` for relevant, `-1` for
distractor, `0` otherwise. -/
noncomputable def udcgStep (relevant_docs distractor_docs : List String)
    (s : UdcgState) (r : SearchResult) : UdcgState :=
  let p := s.pos + 1
  if r.doc_id ∈ s.seen then { s with pos := p }
  else
    let utility : ℝ :=
      if r.doc_id ∈ relevant_docs then 1
      else if r.doc_id ∈ distractor_docs then -1
      else 0
    { seen := r.doc_id :: s.seen
      udcg := s.udcg + utility * (1 / Real.logb 2 ((p : ℝ) + 1))
      relevant_in_top_k :=
        if r.doc_id ∈ relevant_docs then s.relevant_in_top_k + 1
        else s.relevant_in_top_k
      distractor_count :=
        if r.doc_id ∉ relevant_docs ∧ r.doc_id ∈ distractor_docs then
          s.distractor_count + 1
        else s.distractor_count
      pos := p }

/-- Python's `l[:k]` for an integer `k` (negative `k` drops `|k|`
trailing elements). -/
def pySlice (k : ℤ) (l : List α) : List α :=
  if 0 ≤ k then l.take k.toNat else l.take ((l.length : ℤ) + k).toNat

/-- The ideal UDCG loop: `sum over i = 1..count of 1 / log2(i + 1)`. -/
noncomputable def idealUdcgOf (count : ℕ) : ℝ :=
  ∑ i ∈ Finset.range count, 1 / Real.logb 2 ((i : ℝ) + 2)

/-- Embedding of `compute_udcg` from `core/evaluator.py` (values
unrounded, see module comment). -/
noncomputable def compute_udcg (results : List SearchResult)
    (gq : GoldenQuery) (k : ℤ) : EvalResult :=
  let relevant_docs := gq.relevant.dedup
  let distractor_docs := gq.distractors.dedup
  let st := (pySlice k results).foldl
    (udcgStep relevant_docs distractor_docs) ⟨[], 0, 0, 0, 0⟩
  let ideal := idealUdcgOf relevant_docs.length
  { nudcg := if 0 < ideal then st.udcg / ideal else 0
    udcg := st.udcg
    ideal_udcg := ideal
    precision_at_k :=
      if 0 < k then (st.relevant_in_top_k : ℝ) / (k : ℝ) else 0
    distractor_count := st.distractor_count }

/-! ### Config diff (`_diff_dicts` in `core/evaluator.py`)

Configuration documents are JSON values loaded by `json.loads`.  The
mutual inductive below models them; `JFields` is the association list of
an object.  A JSON `null` value and a missing key both become Python
`None`, so both are modelled as `Option.none` of the lookup. -/

mutual
inductive JValue where
  | bool (b : Bool)
  | num (q : ℚ)
  | str (s : String)
  | arr (elems : JList)
  | obj (fields : JFields)
deriving DecidableEq
inductive JList where
  | nil
  | cons (head : JValue) (tail : JList)
deriving DecidableEq
inductive JFields where
  | nil
  | cons (key : String) (val : JValue) (tail : JFields)
deriving DecidableEq
end

/-- Python's `d.get(key)` on an object's fields. -/
def JFields.get : JFields → String → Option JValue
  | .nil, _ => none
  | .cons k v rest, key => if k = key then some v else rest.get key

/-- The keys of an object, in field order (`d.keys()`). -/
def JFields.keys : JFields → List String
  | .nil => []
  | .cons k _ rest => k :: rest.keys

/-- Lexicographic string comparison by code point (the order Python
uses to compare strings), computed structurally on the character
lists. -/
def strLtB : List Char → List Char → Bool
  | [], [] => false
  | [], _ :: _ => true
  | _ :: _, [] => false
  | c :: cs, d :: ds => if c < d then true else if d < c then false else strLtB cs ds

/-- Stable insert for an ascending sort (Python's `sorted` on strings,
which compares lexicographically by code point). -/
def insertAsc (x : String) : List String → List String
  | [] => [x]
  | y :: ys => if strLtB y.data x.data then y :: insertAsc x ys else x :: y :: ys

/-- Ascending insertion sort on strings, modelling `sorted(...)`. -/
def sortStrings (l : List String) : List String :=
  l.foldr insertAsc []

/-- The key set walked by `_diff_dicts`:
`sorted(set(list(a.keys()) + list(b.keys())))`. -/
def sortedKeys (a b : JFields) : List String :=
  sortStrings ((a.keys ++ b.keys).dedup)

/-- One entry of the diff produced by `_diff_dicts`. -/
structure DiffEntry where
  field : String
  a : Option JValue
  b : Option JValue
deriving DecidableEq

/-- A value found under a key is structurally smaller than the object
(termination measure for the recursion of `_diff_dicts`). -/
def JFields.get_sizeOf_lt :
    ∀ (a : JFields) (key : String) (v : JValue),
      a.get key = some v → sizeOf v < sizeOf a
  | .nil, _, _, h => by simp [JFields.get] at h
  | .cons k val rest, key, v, h => by
    simp only [JFields.get] at h
    by_cases hk : k = key
    · rw [if_pos hk] at h
      injection h with h
      subst h
      simp
      omega
    · rw [if_neg hk] at h
      have := get_sizeOf_lt rest key v h
      simp
      omega

mutual
/-- The body of the `for key in all_keys` loop of `_diff_dicts`:
recurse into a pair of nested objects, else report the field when the
two values differ. -/
def diffKeys (a b : JFields) (pre : String) : List String → List DiffEntry
  | [] => []
  | key :: rest =>
    let path := if pre = "" then key else pre ++ "." ++ key
    (match h₁ : a.get key, h₂ : b.get key with
     | some (.obj oa), some (.obj ob) => _diff_dicts oa ob path
     | va, vb => if va = vb then [] else [⟨path, va, vb⟩]) ++
    diffKeys a b pre rest
termination_by keys => (sizeOf a, keys.length)
decreasing_by
  · apply Prod.Lex.left
    have hmem := JFields.get_sizeOf_lt a _ _ h₁
    simp at hmem
    omega
  · apply Prod.Lex.right
    simp
/-- Embedding of `_diff_dicts`: recursive field-by-field diff of two
JSON objects with dotted field paths. -/
def _diff_dicts (a b : JFields) (pre : String) : List DiffEntry :=
  diffKeys a b pre (sortedKeys a b)
termination_by (sizeOf a, (sortedKeys a b).length + 1)
decreasing_by
  apply Prod.Lex.right
  omega
end

/-! ## Theorems -/

/-! ### Distraction flagging (C10) -/

theorem disagreementOf_nonneg (r : SearchResult) : 0 ≤ disagreementOf r := by
  unfold disagreementOf
  apply div_nonneg (abs_nonneg _)
  exact_mod_cast Nat.zero_le _

theorem disagreementOf_lt_one (r : SearchResult)
    (h1 : 0 < r.bm25_rank) (h2 : 0 < r.vector_rank) : disagreementOf r < 1 := by
  unfold disagreementOf
  have hb : (1 : ℚ) ≤ (r.bm25_rank : ℚ) := by exact_mod_cast h1
  have hv : (1 : ℚ) ≤ (r.vector_rank : ℚ) := by exact_mod_cast h2
  have hmax : (0 : ℚ) < max (r.bm25_rank : ℚ) (r.vector_rank : ℚ) :=
    lt_max_iff.mpr (Or.inl (by linarith))
  rw [div_lt_one hmax, abs_sub_lt_iff]
  constructor
  · calc (r.bm25_rank : ℚ) - (r.vector_rank : ℚ)
        < (r.bm25_rank : ℚ) := by linarith
      _ ≤ _ := le_max_left _ _
  · calc (r.vector_rank : ℚ) - (r.bm25_rank : ℚ)
        < (r.vector_rank : ℚ) := by linarith
      _ ≤ _ := le_max_right _ _

/-- C10: for a result with both ranks at least 1, `flag_distractors`
stores the disagreement ratio `|bm25_rank - vector_rank| / max(...)`,
which lies in `[0, 1)`; hence with a threshold of at least 1 no unflagged
result ever becomes flagged, and a result missing either rank is left
untouched (`disagreement = None`, `flagged` unchanged). -/
theorem flag_distractors_spec (θ : ℚ) (rs : List SearchResult) :
    flag_distractors rs θ = rs.map (flagStep θ)
    ∧ (∀ r : SearchResult, 1 ≤ r.bm25_rank → 1 ≤ r.vector_rank →
        (flagStep θ r).disagreement = some (disagreementOf r)
        ∧ 0 ≤ disagreementOf r ∧ disagreementOf r < 1)
    ∧ (1 ≤ θ → ∀ r : SearchResult, r.flagged = false →
        (flagStep θ r).flagged = false)
    ∧ (∀ r : SearchResult, r.bm25_rank = 0 ∨ r.vector_rank = 0 →
        flagStep θ r = r) := by
  refine ⟨rfl, ?_, ?_, ?_⟩
  · intro r h1 h2
    refine ⟨?_, disagreementOf_nonneg r, disagreementOf_lt_one r h1 h2⟩
    unfold flagStep
    rw [if_pos ⟨h1, h2⟩]
    dsimp only
    split <;> rfl
  · intro hθ r hfl
    unfold flagStep
    split
    · rename_i hpos
      have hlt := disagreementOf_lt_one r hpos.1 hpos.2
      dsimp only
      rw [if_neg (by linarith)]
      exact hfl
    · exact hfl
  · intro r h
    unfold flagStep
    rw [if_neg (by omega)]

/-- C10 witness: concrete results exercising every hypothesis of
`flag_distractors_spec`. -/
theorem flag_distractors_spec_w :
    ((1 : ℚ) ≤ 1 ∧ (1 : ℕ) ≤ 3 ∧ (1 : ℕ) ≤ 2)
    ∧ (flagStep 1 ⟨"c", "d", 1, 3, 2, false, none⟩).disagreement
        = some (disagreementOf ⟨"c", "d", 1, 3, 2, false, none⟩)
    ∧ (flagStep 1 ⟨"c", "d", 1, 3, 2, false, none⟩).flagged = false
    ∧ flagStep 1 ⟨"c", "d", 1, 0, 2, false, none⟩ = ⟨"c", "d", 1, 0, 2, false, none⟩ := by
  refine ⟨⟨le_refl 1, by decide, by decide⟩, ?_, ?_, ?_⟩
  · exact ((flag_distractors_spec 1 []).2.1 ⟨"c", "d", 1, 3, 2, false, none⟩
      (by decide) (by decide)).1
  · exact (flag_distractors_spec 1 []).2.2.1 (le_refl 1)
      ⟨"c", "d", 1, 3, 2, false, none⟩ rfl
  · exact (flag_distractors_spec 1 []).2.2.2 ⟨"c", "d", 1, 0, 2, false, none⟩
      (Or.inl rfl)

/-! ### Dynamic-k (C4) -/

theorem take_front {α : Type} (n : ℕ) (l : List α) : l.take n <+: l :=
  ⟨l.drop n, List.take_append_drop n l⟩

theorem findCliff_min_le (f : ℚ) (m : ℕ) :
    ∀ (l : List ℚ) (i : ℕ) (acc : ℚ) (j : ℕ),
      findCliff f m l i acc = some j → m ≤ j := by
  intro l
  induction l with
  | nil => intro i acc j h; simp [findCliff] at h
  | cons g rest ih =>
    intro i acc j h
    rw [findCliff] at h
    split at h
    · rename_i hcond
      injection h with h
      omega
    · exact ih _ _ _ h

/-- C4 counterexample: with `min_results = 2 > max_results = 1` (both
at least 1, as the claim requires) on a score-sorted 3-element list,
the output has 1 item, fewer than `min(min_results, len(input)) = 2`:
the claim's lower bound fails without `min_results ≤ max_results`. -/
theorem apply_dynamic_k_bounds_cex :
    List.Chain' (fun a b : String × ℚ => b.2 ≤ a.2) [("a", 3), ("b", 2), ("c", 1)]
    ∧ (0 : ℚ) < 1 ∧ (1 : ℕ) ≤ 2 ∧ (1 : ℕ) ≤ 1
    ∧ (apply_dynamic_k [("a", 3), ("b", 2), ("c", 1)] 1 2 1).length
        < min 2 ([("a", 3), ("b", 2), ("c", 1)] : List (String × ℚ)).length := by
  refine ⟨?_, by norm_num, by decide, by decide, by decide⟩
  norm_num [List.chain'_cons]

/-- C4 (amended: the bounds additionally require
`min_results ≤ max_results`, which the validator's semantic check
enforces; without it the `max_results` cap can cut below `min_results`,
see `apply_dynamic_k_bounds_cex`): `apply_dynamic_k` returns a prefix of
the input of length at most `max_results` and at least
`min(min_results, len(input))`, and returns the capped list unchanged
when it has at most `min_results` items. -/
theorem apply_dynamic_k_bounds (results : List (String × ℚ)) (f : ℚ)
    (min_results max_results : ℕ)
    (hsorted : List.Chain' (fun a b => b.2 ≤ a.2) results)
    (hf : 0 < f) (hmin : 1 ≤ min_results) (hmax : 1 ≤ max_results)
    (hmm : min_results ≤ max_results) :
    apply_dynamic_k results f min_results max_results <+: results
    ∧ (apply_dynamic_k results f min_results max_results).length ≤ max_results
    ∧ min min_results results.length
        ≤ (apply_dynamic_k results f min_results max_results).length
    ∧ ((results.take max_results).length ≤ min_results →
        apply_dynamic_k results f min_results max_results
          = results.take max_results) := by
  have hd : apply_dynamic_k results f min_results max_results
      = if (results.take max_results).length ≤ min_results then
          results.take max_results
        else
          match findCliff f min_results (gapsOf (results.take max_results)) 0 0 with
          | some i => (results.take max_results).take i
          | none => results.take max_results := rfl
  have hcaplen : (results.take max_results).length
      = min max_results results.length := List.length_take _ _
  by_cases hc : (results.take max_results).length ≤ min_results
  · rw [hd, if_pos hc]
    refine ⟨take_front _ _, ?_, ?_, fun _ => rfl⟩
    · rw [hcaplen]; omega
    · rw [hcaplen]; omega
  · rw [hd, if_neg hc]
    cases hcf : findCliff f min_results (gapsOf (results.take max_results)) 0 0 with
    | some j =>
      have hj := findCliff_min_le f min_results _ _ _ _ hcf
      refine ⟨(take_front _ _).trans (take_front _ _), ?_, ?_,
        fun h => absurd h hc⟩
      · rw [List.length_take, hcaplen]; omega
      · rw [List.length_take, hcaplen]; omega
    | none =>
      refine ⟨take_front _ _, ?_, ?_, fun h => absurd h hc⟩
      · rw [hcaplen]; omega
      · rw [hcaplen]; omega

/-- C4 witness: the amended bounds at a concrete score-sorted list. -/
theorem apply_dynamic_k_bounds_w :
    apply_dynamic_k [("a", 3), ("b", 2), ("c", 1)] 1 1 2 <+:
      [("a", 3), ("b", 2), ("c", 1)]
    ∧ (apply_dynamic_k [("a", 3), ("b", 2), ("c", 1)] 1 1 2).length ≤ 2
    ∧ min 1 ([("a", 3), ("b", 2), ("c", 1)] : List (String × ℚ)).length
        ≤ (apply_dynamic_k [("a", 3), ("b", 2), ("c", 1)] 1 1 2).length := by
  have h := apply_dynamic_k_bounds [("a", 3), ("b", 2), ("c", 1)] 1 1 2
    (by norm_num [List.chain'_cons]) (by norm_num) (by decide) (by decide) (by decide)
  exact ⟨h.1, h.2.1, h.2.2.1⟩

/-! ### RRF fusion (C5) -/

theorem mem_insertDescBy {α : Type} (key : α → ℚ) (x a : α) :
    ∀ l, a ∈ insertDescBy key x l ↔ a = x ∨ a ∈ l := by
  intro l
  induction l with
  | nil => simp [insertDescBy]
  | cons y ys ih =>
    rw [insertDescBy]
    split
    · simp only [List.mem_cons, ih]
      tauto
    · simp only [List.mem_cons]

theorem mem_sortDescBy {α : Type} (key : α → ℚ) (a : α) :
    ∀ l, a ∈ sortDescBy key l ↔ a ∈ l := by
  intro l
  induction l with
  | nil => simp [sortDescBy]
  | cons y ys ih =>
    show a ∈ insertDescBy key y (sortDescBy key ys) ↔ _
    rw [mem_insertDescBy, ih]
    simp

theorem dictRank_go_some (cid : String) :
    ∀ (el : List (ℕ × String × ℚ)) (acc : Option ℕ) (r : ℕ),
      el.foldl (fun acc p => if p.2.1 = cid then some (p.1 + 1) else acc) acc
          = some r →
      (∃ p ∈ el, p.2.1 = cid ∧ r = p.1 + 1) ∨ acc = some r := by
  intro el
  induction el with
  | nil => intro acc r h; exact Or.inr h
  | cons p el' ih =>
    intro acc r h
    rw [List.foldl_cons] at h
    rcases ih _ _ h with ⟨q, hq, hqc, hqr⟩ | hacc
    · exact Or.inl ⟨q, List.mem_cons_of_mem _ hq, hqc, hqr⟩
    · by_cases hp : p.2.1 = cid
      · rw [if_pos hp] at hacc
        injection hacc with hacc
        exact Or.inl ⟨p, List.mem_cons_self _ _, hp, hacc.symm⟩
      · rw [if_neg hp] at hacc
        exact Or.inr hacc

theorem dictRank_some (l : List (String × ℚ)) (cid : String) (r : ℕ)
    (h : dictRank l cid = some r) : 1 ≤ r ∧ cid ∈ l.map Prod.fst := by
  unfold dictRank at h
  rcases dictRank_go_some cid _ _ _ h with ⟨p, hp, hpc, hpr⟩ | habs
  · subst hpr
    refine ⟨by omega, ?_⟩
    have : p.2 ∈ l.enum.map Prod.snd := List.mem_map_of_mem _ hp
    rw [List.enum_map_snd] at this
    rw [← hpc]
    exact List.mem_map_of_mem _ this
  · cases habs

theorem rankGetD_pos (l : List (String × ℚ)) (cid : String) :
    1 ≤ (dictRank l cid).getD (l.length + 1) := by
  cases h : dictRank l cid with
  | none => simp
  | some r => simpa using (dictRank_some l cid r h).1

theorem rrfScore_anti (rrf_k : ℕ) (br vr br' vr' : ℕ)
    (hbr : 1 ≤ br) (hvr : 1 ≤ vr) (h1 : br ≤ br') (h2 : vr ≤ vr') :
    rrfScore rrf_k br' vr' ≤ rrfScore rrf_k br vr := by
  unfold rrfScore
  have hkb : (0 : ℚ) < (rrf_k : ℚ) + (br : ℚ) := by
    have : (1 : ℚ) ≤ (br : ℚ) := by exact_mod_cast hbr
    have : (0 : ℚ) ≤ (rrf_k : ℚ) := Nat.cast_nonneg _
    linarith
  have hkv : (0 : ℚ) < (rrf_k : ℚ) + (vr : ℚ) := by
    have : (1 : ℚ) ≤ (vr : ℚ) := by exact_mod_cast hvr
    have : (0 : ℚ) ≤ (rrf_k : ℚ) := Nat.cast_nonneg _
    linarith
  have hb' : (rrf_k : ℚ) + (br : ℚ) ≤ (rrf_k : ℚ) + (br' : ℚ) := by
    have : (br : ℚ) ≤ (br' : ℚ) := by exact_mod_cast h1
    linarith
  have hv' : (rrf_k : ℚ) + (vr : ℚ) ≤ (rrf_k : ℚ) + (vr' : ℚ) := by
    have : (vr : ℚ) ≤ (vr' : ℚ) := by exact_mod_cast h2
    linarith
  exact add_le_add (one_div_le_one_div_of_le hkb hb')
    (one_div_le_one_div_of_le hkv hv')

/-- C5: `rrf_fuse` assigns each id of the union of the two sides the
score `1/(rrf_k + bm25_rank) + 1/(rrf_k + vector_rank)` with fallback
rank `len(side) + 1` for a missing side; the score is non-increasing in
each rank; `rrfScore rrf_k 1 1 = 2/(rrf_k + 1)`, which an id ranked 1 on
both sides receives, and no fused entry ever exceeds it. -/
theorem rrf_fuse_spec (bm vec : List (String × ℚ)) (rrf_k : ℕ) :
    (∀ cid ∈ bm.map Prod.fst ++ vec.map Prod.fst,
      (cid,
       rrfScore rrf_k ((dictRank bm cid).getD (bm.length + 1))
         ((dictRank vec cid).getD (vec.length + 1)),
       (dictRank bm cid).getD (bm.length + 1),
       (dictRank vec cid).getD (vec.length + 1)) ∈ rrf_fuse bm vec rrf_k)
    ∧ (∀ br vr br' vr' : ℕ, 1 ≤ br → 1 ≤ vr → br ≤ br' → vr ≤ vr' →
        rrfScore rrf_k br' vr' ≤ rrfScore rrf_k br vr)
    ∧ rrfScore rrf_k 1 1 = 2 / ((rrf_k : ℚ) + 1)
    ∧ (∀ cid, dictRank bm cid = some 1 → dictRank vec cid = some 1 →
        (cid, 2 / ((rrf_k : ℚ) + 1), 1, 1) ∈ rrf_fuse bm vec rrf_k)
    ∧ (∀ e ∈ rrf_fuse bm vec rrf_k, e.2.1 ≤ 2 / ((rrf_k : ℚ) + 1)) := by
  have hmem : ∀ cid ∈ bm.map Prod.fst ++ vec.map Prod.fst,
      (cid,
       rrfScore rrf_k ((dictRank bm cid).getD (bm.length + 1))
         ((dictRank vec cid).getD (vec.length + 1)),
       (dictRank bm cid).getD (bm.length + 1),
       (dictRank vec cid).getD (vec.length + 1)) ∈ rrf_fuse bm vec rrf_k := by
    intro cid hcid
    show _ ∈ sortDescBy _ _
    rw [mem_sortDescBy]
    exact List.mem_map_of_mem _ (List.mem_dedup.mpr hcid)
  have hone : rrfScore rrf_k 1 1 = 2 / ((rrf_k : ℚ) + 1) := by
    unfold rrfScore
    rw [div_add_div_same]
    norm_num
  refine ⟨hmem, rrfScore_anti rrf_k, hone, ?_, ?_⟩
  · intro cid h1 h2
    have := hmem cid (List.mem_append.mpr
      (Or.inl (dictRank_some bm cid 1 h1).2))
    rw [h1, h2] at this
    simpa [hone] using this
  · intro e he
    rw [show rrf_fuse bm vec rrf_k = sortDescBy (fun x => x.2.1)
        (((bm.map Prod.fst ++ vec.map Prod.fst).dedup).map (fun cid =>
          (cid,
           rrfScore rrf_k ((dictRank bm cid).getD (bm.length + 1))
             ((dictRank vec cid).getD (vec.length + 1)),
           (dictRank bm cid).getD (bm.length + 1),
           (dictRank vec cid).getD (vec.length + 1)))) from rfl,
      mem_sortDescBy, List.mem_map] at he
    obtain ⟨cid, _, rfl⟩ := he
    calc rrfScore rrf_k ((dictRank bm cid).getD (bm.length + 1))
          ((dictRank vec cid).getD (vec.length + 1))
        ≤ rrfScore rrf_k 1 1 :=
          rrfScore_anti rrf_k 1 1 _ _ (le_refl 1) (le_refl 1)
            (rankGetD_pos bm cid) (rankGetD_pos vec cid)
      _ = 2 / ((rrf_k : ℚ) + 1) := hone

/-- C5 witness: the fused entry and maximality at a concrete pair of
one-element result lists where `"a"` is ranked 1 on both sides. -/
theorem rrf_fuse_spec_w :
    ("a", 2 / ((60 : ℚ) + 1), 1, 1) ∈ rrf_fuse [("a", 1)] [("a", 2)] 60 :=
  (rrf_fuse_spec [("a", 1)] [("a", 2)] 60).2.2.2.1 "a" (by decide) (by decide)

/-! ### BM25 monotonicity (C6) -/

theorem bm25_denom_pos (tf dl avgdl : ℝ)
    (htf : 0 ≤ tf) (hdl : 0 ≤ dl) (havg : 0 < avgdl) :
    0 < tf + K1 * (1 - B + B * dl / avgdl) := by
  have h1 : (0 : ℝ) ≤ 0.75 * dl / avgdl := by positivity
  unfold K1 B
  nlinarith

theorem bm25Idf_nonneg (N df : ℕ) (h : df ≤ N) : 0 ≤ bm25Idf N df := by
  unfold bm25Idf
  apply Real.log_nonneg
  have hnum : (0 : ℝ) ≤ (N : ℝ) - (df : ℝ) + 0.5 := by
    have : (df : ℝ) ≤ (N : ℝ) := by exact_mod_cast h
    linarith
  have hden : (0 : ℝ) < (df : ℝ) + 0.5 := by positivity
  have := div_nonneg hnum hden.le
  linarith

theorem bm25Idf_anti (N df df' : ℕ) (h1 : df ≤ df') (h2 : df' ≤ N) :
    bm25Idf N df' ≤ bm25Idf N df := by
  unfold bm25Idf
  have hcast1 : (df : ℝ) ≤ (df' : ℝ) := by exact_mod_cast h1
  have hcast2 : (df' : ℝ) ≤ (N : ℝ) := by exact_mod_cast h2
  have hnum' : (0 : ℝ) ≤ (N : ℝ) - (df' : ℝ) + 0.5 := by linarith
  have hden : (0 : ℝ) < (df : ℝ) + 0.5 := by positivity
  have hden' : (0 : ℝ) < (df' : ℝ) + 0.5 := by positivity
  have hratio : ((N : ℝ) - (df' : ℝ) + 0.5) / ((df' : ℝ) + 0.5)
      ≤ ((N : ℝ) - (df : ℝ) + 0.5) / ((df : ℝ) + 0.5) :=
    div_le_div (by linarith) (by linarith) hden (by linarith)
  have harg' : (0 : ℝ) < ((N : ℝ) - (df' : ℝ) + 0.5) / ((df' : ℝ) + 0.5) + 1 := by
    have := div_nonneg hnum' hden'.le
    linarith
  exact Real.log_le_log harg' (by linarith)

/-- C6: the per-term BM25 contribution of `bm25_search` is
non-decreasing in term frequency (for fixed document length) and
non-increasing in document frequency, with `N > 0`, `df ≤ N`,
`0 ≤ tf`, `0 ≤ dl`, `avgdl > 0` and the source constants
`K1 = 1.2`, `B = 0.75`. -/
theorem bm25Term_monotone (N df df' : ℕ) (tf tf' dl avgdl : ℝ)
    (hN : 0 < N) (hdf : df ≤ N) (hdf' : df' ≤ N)
    (htf : 0 ≤ tf) (hdl : 0 ≤ dl) (havg : 0 < avgdl) :
    (tf ≤ tf' → bm25Term N df tf dl avgdl ≤ bm25Term N df tf' dl avgdl)
    ∧ (df ≤ df' → bm25Term N df' tf dl avgdl ≤ bm25Term N df tf dl avgdl) := by
  have hC : 0 < K1 * (1 - B + B * dl / avgdl) := by
    have := bm25_denom_pos 0 dl avgdl (le_refl 0) hdl havg
    linarith
  have hD : 0 < tf + K1 * (1 - B + B * dl / avgdl) :=
    bm25_denom_pos tf dl avgdl htf hdl havg
  have hK : (0 : ℝ) < K1 + 1 := by unfold K1; norm_num
  constructor
  · intro htt
    have htf' : 0 ≤ tf' := le_trans htf htt
    have hD' : 0 < tf' + K1 * (1 - B + B * dl / avgdl) :=
      bm25_denom_pos tf' dl avgdl htf' hdl havg
    unfold bm25Term
    rw [div_le_div_iff hD hD']
    nlinarith [mul_nonneg (mul_nonneg (bm25Idf_nonneg N df hdf) hK.le)
      (mul_nonneg hC.le (sub_nonneg.mpr htt))]
  · intro hdd
    unfold bm25Term
    rw [div_le_div_right hD]
    exact mul_le_mul_of_nonneg_right (bm25Idf_anti N df df' hdd hdf')
      (mul_nonneg htf hK.le)

/-- C6 witness: the monotonicity bounds at `N = 2`, `df = 1 ≤ df' = 2`,
`tf = 1 ≤ tf' = 2`, `dl = 1`, `avgdl = 1`. -/
theorem bm25Term_monotone_w :
    bm25Term 2 1 1 1 1 ≤ bm25Term 2 1 2 1 1
    ∧ bm25Term 2 2 1 1 1 ≤ bm25Term 2 1 1 1 1 := by
  have h := bm25Term_monotone 2 1 2 1 2 1 1 (by norm_num) (by norm_num)
    (by norm_num) (by norm_num) (by norm_num) (by norm_num)
  exact ⟨h.1 (by norm_num), h.2 (by norm_num)⟩

/-! ### UDCG evaluator (C1, C2, C3) -/

theorem compute_udcg_udcg_eq (results : List SearchResult) (gq : GoldenQuery)
    (k : ℤ) :
    (compute_udcg results gq k).udcg
      = ((pySlice k results).foldl
          (udcgStep gq.relevant.dedup gq.distractors.dedup)
          ⟨[], 0, 0, 0, 0⟩).udcg := rfl

theorem compute_udcg_nudcg_eq (results : List SearchResult) (gq : GoldenQuery)
    (k : ℤ) :
    (compute_udcg results gq k).nudcg
      = if 0 < idealUdcgOf gq.relevant.dedup.length then
          ((pySlice k results).foldl
            (udcgStep gq.relevant.dedup gq.distractors.dedup)
            ⟨[], 0, 0, 0, 0⟩).udcg / idealUdcgOf gq.relevant.dedup.length
        else 0 := rfl

theorem compute_udcg_precision_eq (results : List SearchResult)
    (gq : GoldenQuery) (k : ℤ) :
    (compute_udcg results gq k).precision_at_k
      = if 0 < k then
          (((pySlice k results).foldl
            (udcgStep gq.relevant.dedup gq.distractors.dedup)
            ⟨[], 0, 0, 0, 0⟩).relevant_in_top_k : ℝ) / (k : ℝ)
        else 0 := rfl

theorem udcgStep_skip (rel dis : List String) (s : UdcgState)
    (r : SearchResult) (h : r.doc_id ∈ s.seen) :
    udcgStep rel dis s r = { s with pos := s.pos + 1 } := by
  unfold udcgStep
  dsimp only
  rw [if_pos h]

theorem udcgStep_seen (rel dis : List String) (s : UdcgState)
    (r : SearchResult) (h : r.doc_id ∉ s.seen) :
    (udcgStep rel dis s r).seen = r.doc_id :: s.seen := by
  unfold udcgStep
  dsimp only
  rw [if_neg h]

theorem logb_two_pos (x : ℝ) (hx : 2 ≤ x) : 0 < Real.logb 2 x :=
  Real.logb_pos (by norm_num) (by linarith)

theorem idealUdcgOf_pos (n : ℕ) (h : 1 ≤ n) : 0 < idealUdcgOf n := by
  unfold idealUdcgOf
  apply Finset.sum_pos
  · intro i _
    apply one_div_pos.mpr
    apply logb_two_pos
    have : (0 : ℝ) ≤ (i : ℝ) := Nat.cast_nonneg i
    linarith
  · exact Finset.nonempty_range_iff.mpr (by omega)

theorem udcg_fold_irrelevant (rel dis : List String) :
    ∀ (rs : List SearchResult) (s : UdcgState),
      (∀ r ∈ rs, r.doc_id ∉ rel ∧ r.doc_id ∉ dis) →
      (rs.foldl (udcgStep rel dis) s).udcg = s.udcg := by
  intro rs
  induction rs with
  | nil => intro s _; rfl
  | cons r rs' ih =>
    intro s hall
    rw [List.foldl_cons]
    rw [ih _ (fun r' hr' => hall r' (List.mem_cons_of_mem _ hr'))]
    have hr := hall r (List.mem_cons_self _ _)
    unfold udcgStep
    dsimp only
    split
    · rfl
    · rw [if_neg hr.1, if_neg hr.2]
      dsimp only
      ring

theorem udcg_fold_all_relevant (rel dis : List String) :
    ∀ (rs : List SearchResult) (s : UdcgState),
      (∀ r ∈ rs, r.doc_id ∈ rel) →
      (rs.map SearchResult.doc_id).Nodup →
      (∀ r ∈ rs, r.doc_id ∉ s.seen) →
      (rs.foldl (udcgStep rel dis) s).udcg
        = s.udcg + ∑ i ∈ Finset.range rs.length,
            1 / Real.logb 2 ((s.pos : ℝ) + (i : ℝ) + 2) := by
  intro rs
  induction rs with
  | nil => intro s _ _ _; simp
  | cons r rs' ih =>
    intro s hall hnodup hseen
    rw [List.foldl_cons]
    have hrel : r.doc_id ∈ rel := hall r (List.mem_cons_self _ _)
    have hnotseen : r.doc_id ∉ s.seen := hseen r (List.mem_cons_self _ _)
    have hstep : udcgStep rel dis s r
        = { seen := r.doc_id :: s.seen
            udcg := s.udcg + 1 * (1 / Real.logb 2 (((s.pos + 1 : ℕ) : ℝ) + 1))
            relevant_in_top_k := s.relevant_in_top_k + 1
            distractor_count := s.distractor_count
            pos := s.pos + 1 } := by
      unfold udcgStep
      dsimp only
      rw [if_neg hnotseen, if_pos hrel, if_pos hrel,
        if_neg (fun hc => hc.1 hrel)]
    rw [hstep]
    rw [List.map_cons, List.nodup_cons] at hnodup
    have hseen' : ∀ r' ∈ rs', r'.doc_id ∉ r.doc_id :: s.seen := by
      intro r' hr' hmem
      rcases List.mem_cons.mp hmem with heq | hmem'
      · exact hnodup.1 (heq ▸ List.mem_map_of_mem SearchResult.doc_id hr')
      · exact hseen r' (List.mem_cons_of_mem _ hr') hmem'
    rw [ih _ (fun r' hr' => hall r' (List.mem_cons_of_mem _ hr'))
      hnodup.2 hseen']
    dsimp only
    rw [List.length_cons, Finset.sum_range_succ']
    push_cast
    ring_nf
    congr 1
    apply Finset.sum_congr rfl
    intro x _
    congr 2
    ring

/-- C1: the dedup rule of `compute_udcg` — a result whose `doc_id` was
already scored leaves the whole accumulator unchanged except that the
position counter advances; in particular for two consecutive chunks of
the same relevant document the total `udcg` is the single
first-occurrence contribution `1 * (1 / log2 2)`. -/
theorem compute_udcg_dedup (gq : GoldenQuery) :
    (∀ (rel dis : List String) (s : UdcgState) (r : SearchResult),
        r.doc_id ∈ s.seen →
        udcgStep rel dis s r = { s with pos := s.pos + 1 })
    ∧ (∀ (r₁ r₂ : SearchResult) (k : ℤ), r₂.doc_id = r₁.doc_id →
        r₁.doc_id ∈ gq.relevant → 2 ≤ k →
        (compute_udcg [r₁, r₂] gq k).udcg = 1 * (1 / Real.logb 2 2)) := by
  refine ⟨udcgStep_skip, ?_⟩
  intro r₁ r₂ k hdoc hrel hk
  have hrel' : r₁.doc_id ∈ gq.relevant.dedup := List.mem_dedup.mpr hrel
  have hslice : pySlice k [r₁, r₂] = [r₁, r₂] := by
    unfold pySlice
    rw [if_pos (by omega)]
    apply List.take_of_length_le
    simp
    omega
  rw [compute_udcg_udcg_eq, hslice, List.foldl_cons, List.foldl_cons,
    List.foldl_nil]
  rw [udcgStep_skip _ _ _ r₂
    (by rw [udcgStep_seen _ _ _ _ (List.not_mem_nil _), hdoc]
        exact List.mem_cons_self _ _)]
  show (udcgStep _ _ ⟨[], 0, 0, 0, 0⟩ r₁).udcg = _
  unfold udcgStep
  dsimp only
  rw [if_neg (List.not_mem_nil _), if_pos hrel']
  norm_num

/-- C1 witness: two chunks of the same relevant document `"d"`. -/
theorem compute_udcg_dedup_w :
    (compute_udcg
      [⟨"c1", "d", 0, 0, 0, false, none⟩, ⟨"c2", "d", 0, 0, 0, false, none⟩]
      ⟨["d"], []⟩ 2).udcg = 1 * (1 / Real.logb 2 2) :=
  (compute_udcg_dedup ⟨["d"], []⟩).2
    ⟨"c1", "d", 0, 0, 0, false, none⟩ ⟨"c2", "d", 0, 0, 0, false, none⟩ 2
    rfl (by decide) (by decide)

/-- C2 counterexample: a single-result list whose one entry is a
relevant document, against a gold set of two relevant documents
(`n = 1 ≤ |relevant| = 2`, `n ≤ k`): the code divides by the ideal UDCG
of the full gold set, so `nudcg = 1/(1 + 1/log2 3) < 1`, refuting the
claim for `n < |relevant|`. -/
theorem compute_udcg_perfect_cex :
    (compute_udcg [⟨"c1", "d1", 0, 0, 0, false, none⟩]
      ⟨["d1", "d2"], []⟩ 10).nudcg ≠ 1 := by
  have hx : 0 < Real.logb 2 3 := logb_two_pos 3 (by norm_num)
  have hideal : idealUdcgOf ((["d1", "d2"] : List String).dedup.length)
      = 1 + 1 / Real.logb 2 3 := by
    have hlen : (["d1", "d2"] : List String).dedup.length = 2 := by decide
    rw [hlen]
    unfold idealUdcgOf
    rw [Finset.sum_range_succ, Finset.sum_range_succ, Finset.sum_range_zero]
    push_cast
    rw [show (0 : ℝ) + 2 = 2 by norm_num, Real.logb_self_eq_one (by norm_num)]
    norm_num
  have hudcg : ((pySlice 10 [(⟨"c1", "d1", 0, 0, 0, false, none⟩ : SearchResult)]).foldl
      (udcgStep (["d1", "d2"] : List String).dedup
        ([] : List String).dedup) ⟨[], 0, 0, 0, 0⟩).udcg = 1 := by
    have hslice : pySlice 10 [(⟨"c1", "d1", 0, 0, 0, false, none⟩ : SearchResult)]
        = [⟨"c1", "d1", 0, 0, 0, false, none⟩] := by
      unfold pySlice
      rw [if_pos (by omega)]
      rfl
    rw [hslice, List.foldl_cons, List.foldl_nil]
    unfold udcgStep
    dsimp only
    rw [if_neg (List.not_mem_nil _), if_pos (by decide)]
    rw [show ((0 + 1 : ℕ) : ℝ) + 1 = 2 by push_cast; norm_num,
      Real.logb_self_eq_one (by norm_num)]
    norm_num
  rw [compute_udcg_nudcg_eq]
  dsimp only
  rw [hideal, hudcg, if_pos (by positivity)]
  have hlt : 1 / (1 + 1 / Real.logb 2 3) < 1 := by
    rw [div_lt_one (by positivity)]
    have : 0 < 1 / Real.logb 2 3 := by positivity
    linarith
  exact ne_of_lt hlt

/-- C2 (amended: `nudcg = 1` requires the results to cover the whole
gold relevant set, `n = |relevant|`; for `n < |relevant|` the code
divides the sum of the first `n` discounts by the ideal sum over all
`|relevant|` discounts, giving `nudcg < 1`, see
`compute_udcg_perfect_cex`): for a results list of `n ≥ 1` chunks of
`n` distinct documents, all relevant, with `n` equal to the number of
distinct gold relevant documents and `n ≤ k`, `nudcg` is exactly 1. -/
theorem compute_udcg_perfect (results : List SearchResult)
    (gq : GoldenQuery) (k : ℤ)
    (hnodup : (results.map SearchResult.doc_id).Nodup)
    (hrel : ∀ r ∈ results, r.doc_id ∈ gq.relevant)
    (hlen : results.length = gq.relevant.dedup.length)
    (hne : results ≠ [])
    (hk : (results.length : ℤ) ≤ k) :
    (compute_udcg results gq k).nudcg = 1 := by
  have hlen1 : 1 ≤ results.length := by
    cases results with
    | nil => exact absurd rfl hne
    | cons a l => simp
  have hslice : pySlice k results = results := by
    unfold pySlice
    rw [if_pos (by omega)]
    apply List.take_of_length_le
    omega
  have hfold : (results.foldl
      (udcgStep gq.relevant.dedup gq.distractors.dedup)
      ⟨[], 0, 0, 0, 0⟩).udcg = idealUdcgOf results.length := by
    rw [udcg_fold_all_relevant gq.relevant.dedup gq.distractors.dedup results
      ⟨[], 0, 0, 0, 0⟩
      (fun r hr => List.mem_dedup.mpr (hrel r hr)) hnodup
      (fun r _ => List.not_mem_nil _)]
    unfold idealUdcgOf
    dsimp only
    rw [zero_add]
    apply Finset.sum_congr rfl
    intro x _
    norm_num
  rw [compute_udcg_nudcg_eq, hslice, hfold, hlen,
    if_pos (idealUdcgOf_pos _ (by omega))]
  exact div_self (ne_of_gt (idealUdcgOf_pos _ (by omega)))

/-- C2 witness: one relevant result covering the whole (one-document)
gold relevant set. -/
theorem compute_udcg_perfect_w :
    (compute_udcg [⟨"c1", "d1", 0, 0, 0, false, none⟩]
      ⟨["d1"], []⟩ 1).nudcg = 1 :=
  compute_udcg_perfect [⟨"c1", "d1", 0, 0, 0, false, none⟩] ⟨["d1"], []⟩ 1
    (by decide) (by decide) (by decide) (by decide) (by decide)

/-- C3: the degenerate-input policy of `compute_udcg` (a total Lean
function, so no exception can occur): an empty gold relevant set gives
`nudcg = 0` instead of dividing by the zero ideal UDCG; `k ≤ 0` gives
`precision_at_k = 0`; and a results list touching neither the relevant
nor the distractor set gives `udcg = 0` and `nudcg = 0`. -/
theorem compute_udcg_degenerate (results : List SearchResult)
    (gq : GoldenQuery) (k : ℤ) :
    (gq.relevant = [] → (compute_udcg results gq k).nudcg = 0)
    ∧ (k ≤ 0 → (compute_udcg results gq k).precision_at_k = 0)
    ∧ ((∀ r ∈ results, r.doc_id ∉ gq.relevant ∧ r.doc_id ∉ gq.distractors) →
        (compute_udcg results gq k).udcg = 0
        ∧ (compute_udcg results gq k).nudcg = 0) := by
  refine ⟨?_, ?_, ?_⟩
  · intro h
    rw [compute_udcg_nudcg_eq, h]
    rw [if_neg]
    show ¬(0 < idealUdcgOf ([] : List String).dedup.length)
    rw [show ([] : List String).dedup.length = 0 from rfl]
    unfold idealUdcgOf
    simp
  · intro h
    rw [compute_udcg_precision_eq, if_neg (by omega)]
  · intro h
    have hudcg : (compute_udcg results gq k).udcg = 0 := by
      rw [compute_udcg_udcg_eq]
      rw [udcg_fold_irrelevant gq.relevant.dedup gq.distractors.dedup
        (pySlice k results) ⟨[], 0, 0, 0, 0⟩]
      intro r hr
      have hr' : r ∈ results := by
        have : pySlice k results <+: results := by
          unfold pySlice
          split
          · exact take_front _ _
          · exact take_front _ _
        exact this.subset hr
      exact ⟨fun hc => (h r hr').1 (List.mem_dedup.mp hc),
        fun hc => (h r hr').2 (List.mem_dedup.mp hc)⟩
    refine ⟨hudcg, ?_⟩
    rw [compute_udcg_nudcg_eq]
    rw [compute_udcg_udcg_eq] at hudcg
    rw [hudcg]
    split
    · exact zero_div _
    · rfl

/-- C3 witness: empty gold set, `k = 0`, and a result outside both gold
sets. -/
theorem compute_udcg_degenerate_w :
    (compute_udcg [⟨"c1", "d1", 0, 0, 0, false, none⟩] ⟨[], []⟩ 0).nudcg = 0
    ∧ (compute_udcg [⟨"c1", "d1", 0, 0, 0, false, none⟩] ⟨[], []⟩ 0).precision_at_k = 0
    ∧ (compute_udcg [⟨"c1", "d1", 0, 0, 0, false, none⟩] ⟨[], []⟩ 0).udcg = 0 := by
  have h := compute_udcg_degenerate
    [⟨"c1", "d1", 0, 0, 0, false, none⟩] ⟨[], []⟩ 0
  exact ⟨h.1 rfl, h.2.1 (by omega), (h.2.2 (by decide)).1⟩

/-! ### Tokenizer idempotence (C7) -/

theorem toLower_of_kept (c : Char) (h : isKept c = true) : c.toLower = c := by
  unfold isKept at h
  simp only [Bool.or_eq_true, Bool.and_eq_true, decide_eq_true_eq] at h
  unfold Char.toLower
  rw [if_neg]
  rcases h with ⟨h1, h2⟩ | ⟨h1, h2⟩ <;>
  · rw [Char.le_def, UInt32.le_def, BitVec.le_def] at h1 h2
    simp only [Char.toNat, UInt32.toNat] at h1 h2 ⊢
    have e1 : ('a' : Char).val.toBitVec.toNat = 97 := rfl
    have e2 : ('z' : Char).val.toBitVec.toNat = 122 := rfl
    have e3 : ('0' : Char).val.toBitVec.toNat = 48 := rfl
    have e4 : ('9' : Char).val.toBitVec.toNat = 57 := rfl
    omega

theorem cleanChar_of_kept (c : Char) (h : isKept c = true) : cleanChar c = c := by
  unfold cleanChar
  rw [if_pos h]

theorem cleanChar_kept_or_space (c : Char) :
    isKept (cleanChar c) = true ∨ cleanChar c = ' ' := by
  unfold cleanChar
  split
  · left; assumption
  · right; rfl

theorem splitSep_ne_nil (sep : Char) : ∀ l : List Char, splitSep sep l ≠ [] := by
  intro l
  induction l with
  | nil => simp [splitSep]
  | cons a l' ih =>
    rw [splitSep]
    cases h : splitSep sep l' with
    | nil => exact absurd h ih
    | cons x xs =>
      dsimp only
      split <;> simp

theorem mem_splitSep (sep : Char) :
    ∀ (l t : List Char), t ∈ splitSep sep l → ∀ c ∈ t, c ∈ l ∧ c ≠ sep := by
  intro l
  induction l with
  | nil =>
    intro t ht c hc
    simp [splitSep] at ht
    subst ht
    simp at hc
  | cons a l' ih =>
    intro t ht c hc
    rw [splitSep] at ht
    obtain ⟨t0, ts0, hsplit⟩ : ∃ t0 ts0, splitSep sep l' = t0 :: ts0 := by
      cases h : splitSep sep l' with
      | nil => exact absurd h (splitSep_ne_nil sep l')
      | cons x xs => exact ⟨x, xs, rfl⟩
    rw [hsplit] at ht
    dsimp only at ht
    by_cases ha : a = sep
    · rw [if_pos ha] at ht
      rcases List.mem_cons.mp ht with rfl | ht'
      · simp at hc
      · have := ih t (hsplit ▸ ht') c hc
        exact ⟨List.mem_cons_of_mem _ this.1, this.2⟩
    · rw [if_neg ha] at ht
      rcases List.mem_cons.mp ht with rfl | ht'
      · rcases List.mem_cons.mp hc with rfl | hc'
        · exact ⟨List.mem_cons_self _ _, ha⟩
        · have ht0 : t0 ∈ splitSep sep l' := hsplit ▸ List.mem_cons_self _ _
          have := ih t0 ht0 c hc'
          exact ⟨List.mem_cons_of_mem _ this.1, this.2⟩
      · have hts0 : t ∈ splitSep sep l' := hsplit ▸ List.mem_cons_of_mem _ ht'
        have := ih t hts0 c hc
        exact ⟨List.mem_cons_of_mem _ this.1, this.2⟩

theorem splitSep_no_sep (sep : Char) :
    ∀ t : List Char, sep ∉ t → splitSep sep t = [t] := by
  intro t
  induction t with
  | nil => intro _; rfl
  | cons c t' ih =>
    intro h
    have hc : c ≠ sep := fun he => h (he ▸ List.mem_cons_self _ _)
    rw [splitSep, ih (fun hm => h (List.mem_cons_of_mem _ hm))]
    dsimp only
    rw [if_neg hc]

theorem splitSep_append_sep (sep : Char) :
    ∀ (t l : List Char), sep ∉ t →
      splitSep sep (t ++ sep :: l) = t :: splitSep sep l := by
  intro t
  induction t with
  | nil =>
    intro l _
    rw [List.nil_append, splitSep]
    obtain ⟨t0, ts0, hsplit⟩ : ∃ t0 ts0, splitSep sep l = t0 :: ts0 := by
      cases h : splitSep sep l with
      | nil => exact absurd h (splitSep_ne_nil sep l)
      | cons x xs => exact ⟨x, xs, rfl⟩
    rw [hsplit]
    dsimp only
    rw [if_pos rfl]
  | cons c t' ih =>
    intro l h
    have hc : c ≠ sep := fun he => h (he ▸ List.mem_cons_self _ _)
    rw [List.cons_append, splitSep, ih l (fun hm => h (List.mem_cons_of_mem _ hm))]
    dsimp only
    rw [if_neg hc]

theorem map_eq_self_of_fixed {α : Type} (f : α → α) :
    ∀ l : List α, (∀ c ∈ l, f c = c) → l.map f = l := by
  intro l
  induction l with
  | nil => intro _; rfl
  | cons a l' ih =>
    intro h
    rw [List.map_cons, h a (List.mem_cons_self _ _),
      ih (fun c hc => h c (List.mem_cons_of_mem _ hc))]

theorem splitSep_pyJoin :
    ∀ ts : List String, ts ≠ [] → (∀ t ∈ ts, ' ' ∉ t.data) →
      splitSep ' ' (pyJoin " " ts).data = ts.map String.data := by
  intro ts
  induction ts with
  | nil => intro h _; exact absurd rfl h
  | cons t ts' ih =>
    intro _ hns
    cases ts' with
    | nil =>
      rw [show pyJoin " " [t] = t from rfl,
        splitSep_no_sep ' ' t.data (hns t (List.mem_cons_self _ _))]
      rfl
    | cons t2 ts'' =>
      rw [show pyJoin " " (t :: t2 :: ts'')
          = t ++ " " ++ pyJoin " " (t2 :: ts'') from rfl,
        String.data_append, String.data_append,
        show (" " : String).data = [' '] from rfl,
        List.append_assoc, List.singleton_append,
        splitSep_append_sep ' ' t.data _ (hns t (List.mem_cons_self _ _)),
        ih (by simp) (fun u hu => hns u (List.mem_cons_of_mem _ hu))]
      rfl

theorem pyJoin_chars (P : Char → Prop) :
    ∀ ts : List String, (∀ t ∈ ts, ∀ c ∈ t.data, P c) → P ' ' →
      ∀ c ∈ (pyJoin " " ts).data, P c := by
  intro ts
  induction ts with
  | nil =>
    intro _ _ c hc
    simp [pyJoin] at hc
  | cons t ts' ih =>
    intro hall hsp c hc
    cases ts' with
    | nil => exact hall t (List.mem_cons_self _ _) c hc
    | cons t2 ts'' =>
      rw [show pyJoin " " (t :: t2 :: ts'')
          = t ++ " " ++ pyJoin " " (t2 :: ts'') from rfl,
        String.data_append, String.data_append,
        show (" " : String).data = [' '] from rfl] at hc
      rcases List.mem_append.mp hc with hc' | hc'
      · rcases List.mem_append.mp hc' with hc'' | hc''
        · exact hall t (List.mem_cons_self _ _) c hc''
        · rw [List.mem_singleton] at hc''
          exact hc'' ▸ hsp
      · exact ih (fun u hu => hall u (List.mem_cons_of_mem _ hu)) hsp c hc'

theorem tokenize_mem (text : String) :
    ∀ t ∈ tokenize text,
      t.data ≠ [] ∧ (∀ c ∈ t.data, isKept c = true) ∧ t ∉ STOP_WORDS := by
  intro t ht
  unfold tokenize at ht
  dsimp only at ht
  rw [List.mem_filter] at ht
  obtain ⟨hmem, hpred⟩ := ht
  rw [List.mem_map] at hmem
  obtain ⟨u, hu, rfl⟩ := hmem
  simp only [Bool.and_eq_true, Bool.not_eq_true'] at hpred
  refine ⟨?_, ?_, ?_⟩
  · intro he
    have hu0 : u = [] := he
    subst hu0
    have htrue : ((String.mk [] : String) == "") = true := by decide
    rw [htrue] at hpred
    simp at hpred
  · intro c hc
    have hmem' := mem_splitSep ' ' _ u hu c hc
    rw [List.mem_map] at hmem'
    obtain ⟨⟨y, _, rfl⟩, hne⟩ := hmem'
    rcases cleanChar_kept_or_space y with hk | hsp
    · exact hk
    · exact absurd hsp hne
  · intro hstop
    have : STOP_WORDS.contains (String.mk u) = true := by
      rw [List.contains_eq_any_beq]
      rw [List.any_eq_true]
      exact ⟨String.mk u, hstop, by simp⟩
    rw [this] at hpred
    simp at hpred

theorem tokenize_of_good (ts : List String) (hne : ts ≠ [])
    (hgood : ∀ t ∈ ts,
      t.data ≠ [] ∧ (∀ c ∈ t.data, isKept c = true) ∧ t ∉ STOP_WORDS) :
    tokenize (pyJoin " " ts) = ts := by
  have hnospace : ∀ t ∈ ts, ' ' ∉ t.data := by
    intro t ht hsp
    have := (hgood t ht).2.1 ' ' hsp
    simp [isKept] at this
  have hchars : ∀ c ∈ (pyJoin " " ts).data, isKept c = true ∨ c = ' ' :=
    pyJoin_chars _ ts (fun t ht c hc => Or.inl ((hgood t ht).2.1 c hc))
      (Or.inr rfl)
  have hclean : ((pyJoin " " ts).data.map Char.toLower).map cleanChar
      = (pyJoin " " ts).data := by
    rw [List.map_map]
    apply map_eq_self_of_fixed
    intro c hc
    show cleanChar c.toLower = c
    rcases hchars c hc with hk | hsp
    · rw [toLower_of_kept c hk, cleanChar_of_kept c hk]
    · subst hsp; rfl
  unfold tokenize
  dsimp only
  rw [hclean, splitSep_pyJoin ts hne hnospace, List.map_map]
  rw [map_eq_self_of_fixed (String.mk ∘ String.data) ts (fun t _ => rfl)]
  apply List.filter_eq_self.mpr
  intro t ht
  have hg := hgood t ht
  simp only [Bool.and_eq_true, Bool.not_eq_true']
  constructor
  · rw [beq_eq_false_iff_ne]
    intro he
    apply hg.1
    rw [he]
  · rw [← Bool.not_eq_true, List.contains_eq_any_beq, List.any_eq_true]
    rintro ⟨w, hw, hbeq⟩
    rw [beq_iff_eq] at hbeq
    exact hg.2.2 (hbeq ▸ hw)

/-- C7: `tokenize` is idempotent — re-tokenizing the whitespace join of
its output reproduces the output exactly, since every emitted token is
nonempty, consists solely of characters in `[a-z0-9]`, and is not a stop
word. -/
theorem tokenize_idempotent (text : String) :
    tokenize (pyJoin " " (tokenize text)) = tokenize text := by
  by_cases hts : tokenize text = []
  · rw [hts]
    rfl
  · exact tokenize_of_good (tokenize text) hts (tokenize_mem text)

/-! ### Chunker on heading-free documents (C8) -/

theorem joinLines_splitSep : ∀ l : List Char, joinLines (splitSep '\n' l) = l := by
  intro l
  induction l with
  | nil => rfl
  | cons c cs ih =>
    rw [splitSep]
    obtain ⟨t0, ts0, hsplit⟩ : ∃ t0 ts0, splitSep '\n' cs = t0 :: ts0 := by
      cases h : splitSep '\n' cs with
      | nil => exact absurd h (splitSep_ne_nil '\n' cs)
      | cons x xs => exact ⟨x, xs, rfl⟩
    rw [hsplit] at ih ⊢
    dsimp only
    by_cases hc : c = '\n'
    · rw [if_pos hc]
      rw [show joinLines ([] :: t0 :: ts0) = [] ++ '\n' :: joinLines (t0 :: ts0)
        from rfl]
      rw [List.nil_append, ih, hc]
    · rw [if_neg hc]
      cases ts0 with
      | nil =>
        exact congrArg (List.cons c) ih
      | cons t1 ts1 =>
        rw [show joinLines ((c :: t0) :: t1 :: ts1)
            = (c :: t0) ++ '\n' :: joinLines (t1 :: ts1) from rfl]
        rw [show joinLines (t0 :: t1 :: ts1)
            = t0 ++ '\n' :: joinLines (t1 :: ts1) from rfl] at ih
        rw [List.cons_append, ih]

theorem chunk_fold_no_heading (mark : List Char) :
    ∀ (lines : List (List Char)) (s : ChunkAcc),
      (∀ line ∈ lines, ¬ mark.isPrefixOf line = true) →
      lines.foldl (chunkStep mark) s = ⟨s.secs, s.heading, s.curr ++ lines⟩ := by
  intro lines
  induction lines with
  | nil =>
    intro s _
    rw [List.foldl_nil, List.append_nil]
  | cons line ls ih =>
    intro s hall
    rw [List.foldl_cons]
    have hline : ¬ mark.isPrefixOf line = true :=
      hall line (List.mem_cons_self _ _)
    rw [show chunkStep mark s line = { s with curr := s.curr ++ [line] } from by
      unfold chunkStep; rw [if_neg hline]]
    rw [ih _ (fun l hl => hall l (List.mem_cons_of_mem _ hl))]
    dsimp only
    rw [List.append_assoc, List.singleton_append]

/-- C8 counterexample: a document consisting only of whitespace has no
level-2 heading line, yet `chunk_markdown` returns zero chunks (the
single whole-document section is whitespace-only and is dropped), not
the one chunk the claim asserts for every heading-free document. -/
theorem chunk_markdown_no_heading_cex :
    (∀ line ∈ splitSep '\n' (" " : String).data,
      ¬ (headingMarker 2).isPrefixOf line = true)
    ∧ chunk_markdown " " "d.md" "c" "doc" 2 = [] :=
  ⟨by decide, by decide⟩

/-- C8 (amended: the one-chunk result additionally requires the document
text not to be whitespace-only; a whitespace-only heading-free document
yields zero chunks because the whole-document chunk is dropped as empty,
see `chunk_markdown_no_heading_cex`): a document with no line starting
with the target heading marker becomes a single chunk titled after the
document, covering the whole document text (stripped), and no chunk at
all when the text is whitespace-only. -/
theorem chunk_markdown_no_heading (text rel_path category title : String)
    (hl : ℕ)
    (h : ∀ line ∈ splitSep '\n' text.data,
      ¬ (headingMarker hl).isPrefixOf line = true) :
    (trimChars text.data ≠ [] →
      chunk_markdown text rel_path category title hl =
        [{ id := rel_path ++ "#" ++ slugify title
           doc_id := rel_path
           text := String.mk (trimChars text.data)
           category := category
           title := title
           heading := title }])
    ∧ (trimChars text.data = [] →
        chunk_markdown text rel_path category title hl = []) := by
  have hlines : splitSep '\n' text.data ≠ [] := splitSep_ne_nil '\n' _
  have hshape : chunk_markdown text rel_path category title hl
      = if trimChars text.data = [] then [] else
          [{ id := rel_path ++ "#" ++ slugify title
             doc_id := rel_path
             text := String.mk (trimChars text.data)
             category := category
             title := title
             heading := title }] := by
    simp only [chunk_markdown]
    rw [chunk_fold_no_heading (headingMarker hl) (splitSep '\n' text.data)
      ⟨[], title.data, []⟩ h]
    simp only [List.nil_append]
    rw [if_pos hlines, if_neg (List.cons_ne_nil _ _)]
    rw [List.filterMap_cons]
    dsimp only
    rw [joinLines_splitSep]
    by_cases h0 : trimChars text.data = []
    · rw [if_pos h0, if_pos h0]
      rfl
    · rw [if_neg h0, if_neg h0]
      rfl
  constructor
  · intro hn
    rw [hshape, if_neg hn]
  · intro h0
    rw [hshape, if_pos h0]

/-- C8 witness: a two-line heading-free document becomes exactly one
chunk carrying the whole text, titled after the document. -/
theorem chunk_markdown_no_heading_w :
    chunk_markdown "hello\nworld" "d.md" "c" "doc" 2
      = [⟨"d.md#doc", "d.md", "hello\nworld", "c", "doc", "doc"⟩] := by
  have h := (chunk_markdown_no_heading "hello\nworld" "d.md" "c" "doc" 2
    (by decide)).1 (by decide)
  rw [h]
  decide

/-! ### Config diff (C9) -/

theorem diffKeys_sound :
    ∀ n : ℕ, ∀ a b : JFields, sizeOf a ≤ n →
      ∀ (pre : String) (keys : List String), ∀ e ∈ diffKeys a b pre keys,
        e.a ≠ e.b ∧ ¬∃ oa ob, e.a = some (.obj oa) ∧ e.b = some (.obj ob) := by
  intro n
  induction n using Nat.strong_induction_on with
  | _ n ihn =>
    intro a b hn pre keys
    induction keys with
    | nil =>
      intro e he
      rw [diffKeys] at he
      simp at he
    | cons key rest ihk =>
      intro e he
      rw [diffKeys] at he
      rcases List.mem_append.mp he with hleft | hright
      · split at hleft
        · rename_i oa ob h₁ h₂
          rw [_diff_dicts] at hleft
          have hsz := JFields.get_sizeOf_lt a key _ h₁
          simp only [JValue.obj.sizeOf_spec] at hsz
          exact ihn (sizeOf oa) (by omega) oa ob (le_refl _) _ _ e hleft
        · split at hleft
          · simp at hleft
          · rename_i hfall hne
            rw [List.mem_singleton] at hleft
            subst hleft
            refine ⟨hne, ?_⟩
            rintro ⟨oa, ob, hae, hbe⟩
            exact hfall oa ob hae hbe
      · exact ihk e hright

/-- C9: `_diff_dicts` reports only fields whose two values differ and
never reports a pair of nested objects (it recurses into those
key-wise); and on two configuration documents identical except
`retrieval.top_k` being 5 versus 10, the diff is exactly one entry with
the dotted field path `"retrieval.top_k"` and values 5 and 10. -/
theorem diff_dicts_spec :
    (∀ (a b : JFields) (pre : String), ∀ e ∈ _diff_dicts a b pre,
        e.a ≠ e.b ∧ ¬∃ oa ob, e.a = some (.obj oa) ∧ e.b = some (.obj ob))
    ∧ _diff_dicts
        (.cons "name" (.str "baseline")
          (.cons "retrieval"
            (.obj (.cons "method" (.str "hybrid")
              (.cons "top_k" (.num 5) .nil))) .nil))
        (.cons "name" (.str "baseline")
          (.cons "retrieval"
            (.obj (.cons "method" (.str "hybrid")
              (.cons "top_k" (.num 10) .nil))) .nil))
        ""
      = [⟨"retrieval.top_k", some (.num 5), some (.num 10)⟩] := by
  constructor
  · intro a b pre e he
    rw [_diff_dicts] at he
    exact diffKeys_sound (sizeOf a) a b (le_refl _) pre _ e he
  · simp [_diff_dicts, diffKeys, sortedKeys, sortStrings, insertAsc, strLtB,
      JFields.keys, JFields.get]

/-- C9 witness: the soundness statement applied to the one entry of the
concrete config diff. -/
theorem diff_dicts_spec_w :
    (some (JValue.num 5) : Option JValue) ≠ some (JValue.num 10) := by
  have h := diff_dicts_spec
  have hm : (⟨"retrieval.top_k", some (.num 5), some (.num 10)⟩ : DiffEntry)
      ∈ _diff_dicts
        (.cons "name" (.str "baseline")
          (.cons "retrieval"
            (.obj (.cons "method" (.str "hybrid")
              (.cons "top_k" (.num 5) .nil))) .nil))
        (.cons "name" (.str "baseline")
          (.cons "retrieval"
            (.obj (.cons "method" (.str "hybrid")
              (.cons "top_k" (.num 10) .nil))) .nil))
        "" := by
    rw [h.2]
    exact List.mem_singleton_self _
  exact (h.1 _ _ "" _ hm).1

end Hive
